import Mathlib

/-!
Shallow embedding of the markdown-ingestion / hierarchical-retrieval scripts
(`ingest_md_to_chroma.py`, `query_chrome_rlm.py`, `create_summary_anchors.py`).
Text is modelled as `List Char`, paths as lists of path components, Python
dicts as insertion-ordered association lists, and fallible operations return
`Except String`.
-/

/-- Python `str.isspace` characters relevant to `str.split()` with no
arguments (ASCII whitespace; the scripts only meet ASCII input). -/
def pyIsSpace (c : Char) : Bool :=
  c = ' ' || c = '\t' || c = '\n' || c = '\x0d' || c = '\x0b' || c = '\x0c'

theorem dropWhile_length_le (p : α → Bool) : (l : List α) → (l.dropWhile p).length ≤ l.length
  | [] => Nat.le_refl _
  | a :: l => by
    rw [List.dropWhile_cons]
    split
    · exact Nat.le_succ_of_le (dropWhile_length_le p l)
    · exact Nat.le_refl _

/-- Python `text.split()` (no separator): maximal runs of non-whitespace
characters, with no empty words. -/
def pyWords : List Char → List (List Char)
  | [] => []
  | c :: cs =>
    if pyIsSpace c then pyWords cs
    else (c :: cs.takeWhile (fun d => !pyIsSpace d))
      :: pyWords (cs.dropWhile (fun d => !pyIsSpace d))
termination_by cs => cs.length
decreasing_by
  · simp
  · simp
    exact Nat.lt_succ_of_le (dropWhile_length_le _ cs)

/-- The loop `for i in range(0, len(words), size): chunks.append(" ".join(words[i:i+size]))`
from `split_into_chunks` (src/ingest_md_to_chroma.py, lines 34-37), expressed
over the word list.  `size = 0` would raise `ValueError` in Python's `range`;
it is mapped to no chunks and excluded by every claim (all require size > 0). -/
def chunkWords : Nat → List (List Char) → List (List Char)
  | _, [] => []
  | 0, _ :: _ => []
  | s + 1, w :: ws =>
    List.intercalate [' '] (List.take (s + 1) (w :: ws))
      :: chunkWords (s + 1) (List.drop s ws)
termination_by _ ws => ws.length
decreasing_by
  simp
  exact Nat.lt_succ_of_le (Nat.sub_le _ _)

/-- `split_into_chunks` (src/ingest_md_to_chroma.py, lines 31-38):
`words = text.split()`, then fixed-size windows of `size` words, each joined
with single spaces. -/
def split_into_chunks (text : List Char) (size : Nat) : List (List Char) :=
  chunkWords size (pyWords text)

/-- Python `str.splitlines()`: split at `\n`, `\r\n` or `\r`, no trailing
empty line.  Accumulator holds the current line reversed. -/
def pySplitlinesAux : List Char → List Char → List (List Char)
  | acc, [] => if acc.isEmpty then [] else [acc.reverse]
  | acc, '\x0d' :: '\n' :: rest => acc.reverse :: pySplitlinesAux [] rest
  | acc, '\n' :: rest => acc.reverse :: pySplitlinesAux [] rest
  | acc, '\x0d' :: rest => acc.reverse :: pySplitlinesAux [] rest
  | acc, c :: rest => pySplitlinesAux (c :: acc) rest

def pySplitlines (text : List Char) : List (List Char) :=
  pySplitlinesAux [] text

/-- Python `str.strip()` with no arguments: drop whitespace at both ends. -/
def pyStrip (cs : List Char) : List Char :=
  ((cs.dropWhile pyIsSpace).reverse.dropWhile pyIsSpace).reverse

/-- `line.startswith("#")`. -/
def startsWithHash : List Char → Bool
  | '#' :: _ => true
  | _ => false

/-- The character set of `line.lstrip("# ")`. -/
def isHashOrSpace (c : Char) : Bool :=
  c = '#' || c = ' '

/-- The `for line in text.splitlines()` loop of `extract_title`
(src/ingest_md_to_chroma.py, lines 42-45): return the first line starting
with `#`, with `lstrip("# ")`-then-`strip()` applied, else `""`. -/
def extract_title_lines : List (List Char) → List Char
  | [] => []
  | line :: rest =>
    if startsWithHash line then pyStrip (line.dropWhile isHashOrSpace)
    else extract_title_lines rest

/-- `extract_title` (src/ingest_md_to_chroma.py, lines 40-45). -/
def extract_title (text : List Char) : List Char :=
  extract_title_lines (pySplitlines text)

/-- `pathlib.PurePath.stem` for a file name: `name[:i]` for `i = name.rfind(".")`
when `0 < i < len(name) - 1`, else the whole name. -/
def rfindDot (cs : List Char) : Option Nat :=
  match cs.reverse.findIdx? (· = '.') with
  | some j => some (cs.length - 1 - j)
  | none => none

def pyStem (name : String) : String :=
  let cs := name.toList
  match rfindDot cs with
  | some i => if 0 < i ∧ i < cs.length - 1 then String.mk (cs.take i) else name
  | none => name

/-- `pathlib.PurePath.suffix` for a file name. -/
def pySuffix (name : String) : String :=
  let cs := name.toList
  match rfindDot cs with
  | some i => if 0 < i ∧ i < cs.length - 1 then String.mk (cs.drop i) else ""
  | none => ""

/-- `extract_title(content) or file_path.stem` (src/ingest_md_to_chroma.py,
line 97): the empty string is falsy in Python, so the stem is used exactly
when the extracted title is empty. -/
def derive_title (content : List Char) (file_name : String) : String :=
  let t := extract_title content
  if t = [] then pyStem file_name else String.mk t

/-- `is_summary_file` (src/ingest_md_to_chroma.py, lines 67-69), applied to
the file's base name. -/
def is_summary_file (file_name : String) : Bool :=
  file_name = "_summary.md"

/-!  Paths are modelled as lists of components under the filesystem root
(`[]` is `/`, whose `pathlib` parent is itself).  `Path.parent` is
`List.dropLast`, `Path.name` is the last component. -/

/-- The `while current != root and current != current.parent` loop of
`get_folder_hierarchy` (src/ingest_md_to_chroma.py, lines 59-63), on the
*reversed* component lists, where `current.name` is the head and
`current.parent` the tail: stop at the root (`cur = rootRev`) or at the
filesystem root (`cur = []`, whose parent is itself), else collect the name
and ascend.  Names are collected leaf-first, exactly like the Python list
before its final `reverse()`. -/
def hierWalkRev (rootRev cur : List String) : List String :=
  match cur with
  | [] => []
  | name :: rest => if name :: rest = rootRev then [] else name :: hierWalkRev rootRev rest

/-- The same loop on plain (root-first) component lists. -/
def hierWalk (root current : List String) : List String :=
  hierWalkRev root.reverse current.reverse

/-- `get_folder_hierarchy` (src/ingest_md_to_chroma.py, lines 57-65): walk up
from the file's parent directory, then reverse to root-first order. -/
def get_folder_hierarchy (file_path root : List String) : List String :=
  (hierWalk root file_path.dropLast).reverse

/-- One entry of `folder.iterdir()`: a child's base name and whether it is a
directory. -/
structure DirEntry where
  name : String
  isDir : Bool
deriving DecidableEq, Repr

/-- Python `sep.join(items)`. -/
def pyJoin (sep : String) : List String → String
  | [] => ""
  | [x] => x
  | x :: y :: xs => x ++ sep ++ pyJoin sep (y :: xs)

/-- The loop body of `get_folder_contents_summary`
(src/ingest_md_to_chroma.py, lines 74-78): a line for directories and for
`.md` files other than `_summary.md`, nothing for anything else. -/
def entryLineOf (child : DirEntry) : Option String :=
  if child.isDir then some ("- " ++ child.name ++ "/ (folder)")
  else if pySuffix child.name = ".md" ∧ child.name ≠ "_summary.md" then
    some ("- " ++ pyStem child.name ++ " (document)")
  else none

/-- `sorted(folder.iterdir())` compares `pathlib` paths by their path
strings; within one folder that is the lexicographic (code-point) order of
the child names, expressed on the character lists. -/
def entryNameLE (a b : DirEntry) : Prop :=
  a.name.toList ≤ b.name.toList

instance : DecidableRel entryNameLE := fun a b =>
  inferInstanceAs (Decidable (a.name.toList ≤ b.name.toList))

/-- `get_folder_contents_summary` (src/ingest_md_to_chroma.py, lines 71-79):
`"\n".join(contents)` when any line was collected, else the sentinel
`"(Empty folder)"`. -/
def get_folder_contents_summary (entries : List DirEntry) : String :=
  let contents := (List.insertionSort entryNameLE entries).filterMap entryLineOf
  if contents = [] then "(Empty folder)" else pyJoin "\n" contents

/-- A metadata value: the `metadata` dict of `main` holds strings, ints and
one list of strings (`parent_folders`). -/
inductive MVal where
  | s : String → MVal
  | n : Nat → MVal
  | l : List String → MVal
deriving DecidableEq, Repr

/-- Decidable equality for `Except` results, so concrete runs of the
fallible builders can be checked by `decide`. -/
def exceptDecEq {ε α : Type} [DecidableEq ε] [DecidableEq α] :
    DecidableEq (Except ε α) := fun a b =>
  match a, b with
  | .ok x, .ok y =>
    if h : x = y then isTrue (by rw [h])
    else isFalse (fun hc => h (Except.ok.inj hc))
  | .error x, .error y =>
    if h : x = y then isTrue (by rw [h])
    else isFalse (fun hc => h (Except.error.inj hc))
  | .ok _, .error _ => isFalse (fun hc => Except.noConfusion hc)
  | .error _, .ok _ => isFalse (fun hc => Except.noConfusion hc)

instance {ε α : Type} [DecidableEq ε] [DecidableEq α] :
    DecidableEq (Except ε α) := exceptDecEq

/-- A Python dict as an insertion-ordered association list with unique keys.
`dict[k] = v` replaces in place when `k` exists, else appends. -/
def dictInsert (m : List (String × MVal)) (k : String) (v : MVal) :
    List (String × MVal) :=
  if m.any (fun p => p.1 = k) then m.map (fun p => if p.1 = k then (k, v) else p)
  else m ++ [(k, v)]

/-- `metadata.update(hierarchy_meta)` (src/ingest_md_to_chroma.py, line 136)
where `hierarchy_meta` is a *list of strings*: `dict.update` unpacks each
element as a key-value pair, so a string of length two becomes the pair of
its two characters and any other length raises `ValueError`. -/
def dictUpdateStrings :
    List (String × MVal) → List String → Except String (List (String × MVal))
  | m, [] => .ok m
  | m, s :: rest =>
    match s.toList with
    | [k, v] => dictUpdateStrings (dictInsert m (String.mk [k]) (MVal.s (String.mk [v]))) rest
    | _ => .error "ValueError: dictionary update sequence element is not a pair"

/-- The per-chunk metadata construction of `main`
(src/ingest_md_to_chroma.py, lines 95-142) for one document and one chunk
index: the dict literal of lines 124-133, then `metadata.update(hierarchy_meta)`
(line 136), then the conditional `folder_contents` insertion (lines 139-140).
`entries` is the listing of the file's parent directory; `rel_path` models
`file_path.relative_to(ROOT_DIR).as_posix()` for a file under the root.
`get_folder_hierarchy` is pure, so the recomputations at lines 131-132 equal
the `hierarchy_meta` of line 103. -/
def base_metadata (root file_path : List String) (content : List Char)
    (idx : Nat) : List (String × MVal) :=
  let rel_path := pyJoin "/" (file_path.drop root.length)
  let title := derive_title content (file_path.getLastD "")
  let is_summary := is_summary_file (file_path.getLastD "")
  let hierarchy_meta := get_folder_hierarchy file_path root
  [("path", .s rel_path),
   ("title", .s title),
   ("section", .s (file_path.dropLast.getLastD "")),
   ("chunk_index", .n idx),
   ("type", .s (if is_summary then "summary" else "content")),
   ("is_summary", .s (if is_summary then "true" else "false")),
   ("depth", .n hierarchy_meta.length),
   ("parent_folders", .l hierarchy_meta)]

def process_chunk (root file_path : List String) (content : List Char)
    (entries : List DirEntry) (idx : Nat) :
    Except String (List (String × MVal)) :=
  let is_summary := is_summary_file (file_path.getLastD "")
  let hierarchy_meta := get_folder_hierarchy file_path root
  let folder_contents := if is_summary then get_folder_contents_summary entries else ""
  let metadata := base_metadata root file_path content idx
  match dictUpdateStrings metadata hierarchy_meta with
  | .error e => .error e
  | .ok m =>
    .ok (if is_summary ∧ folder_contents ≠ "" then
          dictInsert m "folder_contents" (MVal.s folder_contents)
         else m)

/-- One record of a store query response: id, its `type` metadata field, and
its distance (only the ordering of distances matters; modelled as `Int`). -/
structure Hit where
  id : String
  type : String
  dist : Int
deriving DecidableEq, Repr

/-- The `key=lambda x: x[2]` sort order of `query_with_hierarchy`
(src/query_chrome_rlm.py, lines 58-59). -/
def hitLE (a b : Hit) : Prop :=
  a.dist ≤ b.dist

instance : DecidableRel hitLE := fun a b =>
  inferInstanceAs (Decidable (a.dist ≤ b.dist))

instance : IsTotal Hit hitLE :=
  ⟨fun a b => Int.le_total a.dist b.dist⟩

instance : IsTrans Hit hitLE :=
  ⟨fun _ _ _ => Int.le_trans⟩

/-- The summaries-first merge of `query_with_hierarchy`
(src/query_chrome_rlm.py, lines 44-64): partition fetched hits by
`type == "summary"`, sort each partition by distance (Python's stable sort,
modelled by stable insertion sort), take up to `n_results` summaries, then
backfill from content. -/
def rank_merge (hits : List Hit) (n_results : Nat) : List Hit :=
  let summaries := hits.filter (fun h => h.type == "summary")
  let content := hits.filter (fun h => !(h.type == "summary"))
  let summaries := List.insertionSort hitLE summaries
  let content := List.insertionSort hitLE content
  let combined := summaries.take n_results
  if combined.length < n_results then
    combined ++ content.take (n_results - combined.length)
  else combined

/-- One store query: the requested `n_results` and the optional `where`
filter (src/query_chrome_rlm.py, lines 36-40). -/
structure StoreRequest where
  n : Nat
  whereFilter : Option (String × String)
deriving DecidableEq, Repr

/-- Lines 29-31 of src/query_chrome_rlm.py: `if filter_section:` — the empty
string is falsy, so only a non-empty section name installs a filter. -/
def build_where_filter (filter_section : Option String) : Option (String × String) :=
  match filter_section with
  | none => none
  | some s => if s = "" then none else some ("section", s)

/-- `n_to_retrieve = n_results * 2 if retrieve_summaries_first else n_results`
(src/query_chrome_rlm.py, line 34). -/
def n_to_retrieve (n_results : Nat) (retrieve_summaries_first : Bool) : Nat :=
  if retrieve_summaries_first then n_results * 2 else n_results

/-- `query_with_hierarchy` (src/query_chrome_rlm.py, lines 5-111), with the
store abstracted as a function from requests to hit lists.  The first
component records the store queries issued (the source calls
`collection.query` exactly once); the second is the ordered result list the
function displays. -/
def query_with_hierarchy (store : StoreRequest → List Hit) (n_results : Nat)
    (retrieve_summaries_first : Bool) (filter_section : Option String) :
    List StoreRequest × List Hit :=
  let req : StoreRequest :=
    ⟨n_to_retrieve n_results retrieve_summaries_first, build_where_filter filter_section⟩
  let results := store req
  if retrieve_summaries_first then ([req], rank_merge results n_results)
  else ([req], results)

/-- A Markdown file as seen by `walk_markdown_files`: its parent directory
(as the path string `pathlib` comparison uses) and its base name. -/
structure MdFile where
  parent : String
  name : String
deriving DecidableEq, Repr

/-- The sort key order of `walk_markdown_files`
(src/ingest_md_to_chroma.py, lines 49-55): tuples `(p.parent, p.name ==
"_summary.md")` compared lexicographically; `pathlib` compares paths by
their path strings, and `False < True` on the flag. -/
def fileKeyLE (p q : MdFile) : Prop :=
  p.parent < q.parent ∨
    (p.parent = q.parent ∧ (p.name = "_summary.md" → q.name = "_summary.md"))

instance : DecidableRel fileKeyLE := fun _ _ =>
  inferInstanceAs (Decidable (_ ∨ _))

instance : IsTotal MdFile fileKeyLE := by
  constructor
  intro p q
  rcases lt_trichotomy p.parent q.parent with h | h | h
  · exact Or.inl (Or.inl h)
  · by_cases hq : q.name = "_summary.md"
    · exact Or.inl (Or.inr ⟨h, fun _ => hq⟩)
    · by_cases hp : p.name = "_summary.md"
      · exact Or.inr (Or.inr ⟨h.symm, fun _ => hp⟩)
      · exact Or.inl (Or.inr ⟨h, fun hc => absurd hc hp⟩)
  · exact Or.inr (Or.inl h)

instance : IsTrans MdFile fileKeyLE := by
  constructor
  intro p q r hpq hqr
  rcases hpq with h1 | ⟨e1, f1⟩
  · rcases hqr with h2 | ⟨e2, _⟩
    · exact Or.inl (h1.trans h2)
    · exact Or.inl (e2 ▸ h1)
  · rcases hqr with h2 | ⟨e2, f2⟩
    · exact Or.inl (e1 ▸ h2)
    · exact Or.inr ⟨e1.trans e2, fun hp => f2 (f1 hp)⟩

/-- `walk_markdown_files` (src/ingest_md_to_chroma.py, lines 47-55):
`sorted(root.rglob("*.md"), key=lambda p: (p.parent, p.name == "_summary.md"))`,
applied to the list of Markdown files found under the root (Python's sort is
stable; modelled by stable insertion sort). -/
def walk_markdown_files (files : List MdFile) : List MdFile :=
  List.insertionSort fileKeyLE files

/-!  ## Theorems -/

theorem hierWalkRev_append (rootRev : List String) :
    ∀ subRev : List String, hierWalkRev rootRev (subRev ++ rootRev) = subRev := by
  intro subRev
  induction subRev with
  | nil =>
    rw [List.nil_append]
    cases rootRev with
    | nil => rfl
    | cons r rest => rw [hierWalkRev, if_pos rfl]
  | cons name rest ih =>
    rw [List.cons_append, hierWalkRev]
    have hne : name :: (rest ++ rootRev) ≠ rootRev := by
      intro h
      apply_fun List.length at h
      simp at h
      omega
    rw [if_neg hne, ih]

theorem hierWalk_root_append (root : List String) (sub : List String) :
    hierWalk root (root ++ sub) = sub.reverse := by
  rw [hierWalk, List.reverse_append, hierWalkRev_append]

theorem get_folder_hierarchy_append (root sub : List String) (fname : String) :
    get_folder_hierarchy (root ++ sub ++ [fname]) root = sub := by
  rw [get_folder_hierarchy, List.append_assoc,
    show root ++ (sub ++ [fname]) = (root ++ sub) ++ [fname] from (List.append_assoc ..).symm,
    List.dropLast_concat, hierWalk_root_append, List.reverse_reverse]

/-- C6: `get_folder_hierarchy` walks up from the document's parent directory
collecting folder names until it reaches the index root (or the filesystem
root) and returns them reversed, root-first: a document at
`root/sub₁/…/subₖ/f` yields `[sub₁, …, subₖ]`; in particular `root/a/b/doc.md`
yields `["a", "b"]` and a document directly under the root yields `[]`. -/
theorem claim_C6_folder_hierarchy (root sub : List String) (fname : String) :
    get_folder_hierarchy (root ++ sub ++ [fname]) root = sub ∧
    get_folder_hierarchy (root ++ ["a", "b", "doc.md"]) root = ["a", "b"] ∧
    get_folder_hierarchy (root ++ ["doc.md"]) root = [] := by
  refine ⟨get_folder_hierarchy_append root sub fname, ?_, ?_⟩
  · have h := get_folder_hierarchy_append root ["a", "b"] "doc.md"
    simpa using h
  · have h := get_folder_hierarchy_append root [] "doc.md"
    simpa using h

/-- C10: `walk_markdown_files` is a deterministic (pure) reordering of the
Markdown files found under the root: the output is a permutation of the
input, sorted by the key `(parent directory, name == "_summary.md")` —
parent first — and within one folder every `_summary.md` anchor comes after
all of the folder's other files (no non-anchor follows an anchor of the same
folder), contrary to the source comment claiming summaries sort first. -/
theorem claim_C10_walk_markdown_files (files : List MdFile) :
    List.Perm (walk_markdown_files files) files ∧
    List.Sorted fileKeyLE (walk_markdown_files files) ∧
    List.Pairwise
      (fun p q => p.parent = q.parent →
        p.name = "_summary.md" → q.name = "_summary.md")
      (walk_markdown_files files) := by
  refine ⟨List.perm_insertionSort fileKeyLE files,
    List.sorted_insertionSort fileKeyLE files, ?_⟩
  refine (List.sorted_insertionSort fileKeyLE files).imp ?_
  intro p q hpq hpar
  rcases hpq with h | ⟨_, f⟩
  · exact absurd (hpar ▸ h) (lt_irrefl _)
  · exact f

theorem mem_rank_merge_summaries {hits : List Hit} {n : Nat} {h : Hit}
    (hm : h ∈ (List.insertionSort hitLE
      (hits.filter (fun x => x.type == "summary"))).take n) :
    h.type = "summary" := by
  have h1 : h ∈ List.insertionSort hitLE
      (hits.filter (fun x => x.type == "summary")) :=
    (List.take_sublist n _).mem hm
  have h2 : h ∈ hits.filter (fun x => x.type == "summary") :=
    (List.mem_insertionSort hitLE).mp h1
  exact eq_of_beq (List.mem_filter.mp h2).2

theorem mem_rank_merge_content {hits : List Hit} {n : Nat} {h : Hit}
    (hm : h ∈ (List.insertionSort hitLE
      (hits.filter (fun x => !(x.type == "summary")))).take n) :
    h.type ≠ "summary" := by
  have h1 : h ∈ List.insertionSort hitLE
      (hits.filter (fun x => !(x.type == "summary"))) :=
    (List.take_sublist n _).mem hm
  have h2 : h ∈ hits.filter (fun x => !(x.type == "summary")) :=
    (List.mem_insertionSort hitLE).mp h1
  have h3 := (List.mem_filter.mp h2).2
  simp at h3
  exact h3

/-- C1: for every fetched hit list and every `n_results > 0`, the
summaries-first merge produces exactly `min n_results (number of hits)`
items, decomposes as a summary segment followed by a content segment, each
segment sorted by non-decreasing distance; and on the claim's scenario
(`n_results = 2`, four hits: one summary ranked third by distance and three
content hits) it returns the summary followed by the closest content hit. -/
theorem claim_C1_rank_merge (hits : List Hit) (n : Nat) (_hn : 0 < n) :
    (rank_merge hits n).length = min n hits.length ∧
    (∃ A B, rank_merge hits n = A ++ B ∧
      (∀ h ∈ A, h.type = "summary") ∧ (∀ h ∈ B, h.type ≠ "summary") ∧
      List.Sorted hitLE A ∧ List.Sorted hitLE B) ∧
    rank_merge [⟨"c1", "content", 1⟩, ⟨"c2", "content", 2⟩,
        ⟨"s", "summary", 3⟩, ⟨"c3", "content", 4⟩] 2 =
      [⟨"s", "summary", 3⟩, ⟨"c1", "content", 1⟩] := by
  set Sf := hits.filter (fun x => x.type == "summary") with hSf
  set Cf := hits.filter (fun x => !(x.type == "summary")) with hCf
  set S := List.insertionSort hitLE Sf with hS
  set C := List.insertionSort hitLE Cf with hC
  have hSlen : S.length = Sf.length := List.length_insertionSort hitLE Sf
  have hClen : C.length = Cf.length := List.length_insertionSort hitLE Cf
  have hpart : hits.length = Sf.length + Cf.length := by
    rw [hSf, hCf]
    exact List.length_eq_length_filter_add _
  have hmerge : rank_merge hits n =
      if (S.take n).length < n then S.take n ++ C.take (n - (S.take n).length)
      else S.take n := rfl
  have hsortS : List.Sorted hitLE (S.take n) :=
    List.Pairwise.sublist (List.take_sublist n S)
      (List.sorted_insertionSort hitLE Sf)
  have hsortC : ∀ m : Nat, List.Sorted hitLE (C.take m) := fun m =>
    List.Pairwise.sublist (List.take_sublist m C)
      (List.sorted_insertionSort hitLE Cf)
  refine ⟨?_, ?_, by decide⟩
  · rw [hmerge]
    split
    · rw [List.length_append, List.length_take, List.length_take]
      omega
    · rename_i hcond
      rw [List.length_take] at *
      omega
  · rw [hmerge]
    split
    · exact ⟨S.take n, C.take (n - (S.take n).length), rfl,
        fun h hm => mem_rank_merge_summaries hm,
        fun h hm => mem_rank_merge_content hm, hsortS, hsortC _⟩
    · exact ⟨S.take n, [], (List.append_nil _).symm,
        fun h hm => mem_rank_merge_summaries hm,
        fun h hm => absurd hm (List.not_mem_nil h), hsortS, List.sorted_nil⟩

/-- Witness for C1 at a concrete input: `n_results = 2` with the scenario's
four hits. -/
theorem claim_C1_rank_merge_witness :
    (0 : Nat) < 2 ∧
    ((rank_merge [⟨"c1", "content", 1⟩, ⟨"c2", "content", 2⟩,
        ⟨"s", "summary", 3⟩, ⟨"c3", "content", 4⟩] 2).length =
      min 2 ([⟨"c1", "content", 1⟩, ⟨"c2", "content", 2⟩,
        ⟨"s", "summary", 3⟩, ⟨"c3", "content", 4⟩] : List Hit).length ∧
      (∃ A B, rank_merge [⟨"c1", "content", 1⟩, ⟨"c2", "content", 2⟩,
          ⟨"s", "summary", 3⟩, ⟨"c3", "content", 4⟩] 2 = A ++ B ∧
        (∀ h ∈ A, h.type = "summary") ∧ (∀ h ∈ B, h.type ≠ "summary") ∧
        List.Sorted hitLE A ∧ List.Sorted hitLE B) ∧
      rank_merge [⟨"c1", "content", 1⟩, ⟨"c2", "content", 2⟩,
          ⟨"s", "summary", 3⟩, ⟨"c3", "content", 4⟩] 2 =
        [⟨"s", "summary", 3⟩, ⟨"c1", "content", 1⟩]) :=
  ⟨by decide, claim_C1_rank_merge _ 2 (by decide)⟩

/-- C9: for `n_results > 0` the retrieval orchestrator issues exactly one
store query — requesting `n_results * 2` records in summaries-first mode and
exactly `n_results` otherwise — passing the optional section filter through
(a non-empty section name becomes the filter, `None` none), and in the
non-summaries-first mode it returns the store's records unchanged, in the
store's native rank order, without partitioning by type. -/
theorem claim_C9_fetch_policy (store : StoreRequest → List Hit) (n : Nat)
    (fs : Option String) (_hn : 0 < n) :
    (query_with_hierarchy store n true fs).1 =
      [⟨n * 2, build_where_filter fs⟩] ∧
    (query_with_hierarchy store n false fs).1 =
      [⟨n, build_where_filter fs⟩] ∧
    (query_with_hierarchy store n false fs).2 =
      store ⟨n, build_where_filter fs⟩ ∧
    (∀ s, fs = some s → s ≠ "" → build_where_filter fs = some ("section", s)) ∧
    build_where_filter none = none := by
  refine ⟨rfl, rfl, rfl, ?_, rfl⟩
  intro s hfs hs
  subst hfs
  simp [build_where_filter, hs]

/-- Witness for C9 at `n_results = 2`, `filter_section = some "docs"`, and an
empty store. -/
theorem claim_C9_fetch_policy_witness :
    (0 : Nat) < 2 ∧
    ((query_with_hierarchy (fun _ => []) 2 true (some "docs")).1 =
      [⟨2 * 2, build_where_filter (some "docs")⟩] ∧
    (query_with_hierarchy (fun _ => []) 2 false (some "docs")).1 =
      [⟨2, build_where_filter (some "docs")⟩] ∧
    (query_with_hierarchy (fun _ => []) 2 false (some "docs")).2 =
      (fun _ => ([] : List Hit))
        (⟨2, build_where_filter (some "docs")⟩ : StoreRequest) ∧
    (∀ s, (some "docs" : Option String) = some s → s ≠ "" →
      build_where_filter (some "docs") = some ("section", s)) ∧
    build_where_filter none = none) :=
  ⟨by decide, claim_C9_fetch_policy (fun _ => []) 2 (some "docs") (by decide)⟩

/-- C2 fails on the code: `main` executes `metadata.update(hierarchy_meta)`
on the *list* of folder names, so for any document one level below the root
(folder name of length ≠ 2, e.g. `a`) the build raises `ValueError` instead
of succeeding, and for a two-character folder name (e.g. `ab`) it succeeds
but injects a stray single-character key `"a"` beyond the enumerated schema. -/
theorem claim_C2_metadata_update_bug :
    process_chunk [] ["a", "doc.md"] ("# T".toList) [] 0 =
      .error "ValueError: dictionary update sequence element is not a pair" ∧
    (∃ m, process_chunk [] ["ab", "doc.md"] ("# T".toList) [] 0 = .ok m ∧
      List.lookup "a" m = some (MVal.s "b")) := by
  refine ⟨rfl, ⟨[("path", .s "ab/doc.md"), ("title", .s "T"),
    ("section", .s "ab"), ("chunk_index", .n 0), ("type", .s "content"),
    ("is_summary", .s "false"), ("depth", .n 1),
    ("parent_folders", .l ["ab"]), ("a", .s "b")], rfl, rfl⟩⟩

theorem lookup_cons (a k : String) (b : MVal) (es : List (String × MVal)) :
    List.lookup a ((k, b) :: es) = if a == k then some b else List.lookup a es := by
  rw [List.lookup]
  cases h : a == k <;> simp

theorem lookup_map_overwrite (k k' : String) (v : MVal) (h : k' ≠ k)
    (m : List (String × MVal)) :
    List.lookup k' (m.map (fun p => if p.1 = k then (k, v) else p)) =
      List.lookup k' m := by
  induction m with
  | nil => rfl
  | cons p m ih =>
    obtain ⟨p1, p2⟩ := p
    rw [List.map_cons]
    by_cases hp : p1 = k
    · subst hp
      simp only [if_pos rfl]
      rw [lookup_cons, lookup_cons, if_neg (by simp [beq_false_of_ne h]),
        if_neg (by simp [beq_false_of_ne h]), ih]
    · simp only [if_neg hp]
      rw [lookup_cons, lookup_cons, ih]

theorem lookup_append_single_ne (k k' : String) (v : MVal) (h : k' ≠ k)
    (m : List (String × MVal)) :
    List.lookup k' (m ++ [(k, v)]) = List.lookup k' m := by
  induction m with
  | nil =>
    rw [List.nil_append, lookup_cons, if_neg (by simp [beq_false_of_ne h])]
  | cons p m ih =>
    obtain ⟨p1, p2⟩ := p
    rw [List.cons_append, lookup_cons, lookup_cons, ih]

theorem lookup_dictInsert_ne (k k' : String) (v : MVal) (h : k' ≠ k)
    (m : List (String × MVal)) :
    List.lookup k' (dictInsert m k v) = List.lookup k' m := by
  rw [dictInsert]
  split
  · exact lookup_map_overwrite k k' v h m
  · exact lookup_append_single_ne k k' v h m

theorem lookup_dictInsert_self (k : String) (v : MVal)
    (m : List (String × MVal)) :
    List.lookup k (dictInsert m k v) = some v := by
  induction m with
  | nil =>
    rw [dictInsert]
    simp [lookup_cons]
  | cons p m ih =>
    obtain ⟨p1, p2⟩ := p
    rw [dictInsert]
    by_cases hp : p1 = k
    · subst hp
      rw [if_pos (by simp)]
      rw [List.map_cons, if_pos rfl, lookup_cons, if_pos (by simp)]
    · have hkp : ¬k = p1 := fun he => hp he.symm
      have hany : ((p1, p2) :: m).any (fun p => p.1 = k) = m.any (fun p => p.1 = k) := by
        simp [List.any_cons, hp]
      rw [hany]
      rw [dictInsert] at ih
      split
      · rename_i hcond
        rw [List.map_cons, if_neg hp, lookup_cons, if_neg (by simp [hkp])]
        rw [if_pos hcond] at ih
        exact ih
      · rename_i hcond
        rw [List.cons_append, lookup_cons, if_neg (by simp [hkp])]
        rw [if_neg hcond] at ih
        exact ih

theorem dictUpdateStrings_lookup :
    ∀ (items : List String) (m m' : List (String × MVal)),
    dictUpdateStrings m items = .ok m' →
    ∀ k : String, k.toList.length ≠ 1 → List.lookup k m' = List.lookup k m := by
  intro items
  induction items with
  | nil =>
    intro m m' h k _
    rw [dictUpdateStrings] at h
    injection h with h
    rw [h]
  | cons s rest ih =>
    intro m m' h k hk
    rw [dictUpdateStrings] at h
    rcases hs : s.toList with _ | ⟨a, _ | ⟨b, _ | ⟨c, tl⟩⟩⟩ <;> rw [hs] at h
    · cases h
    · cases h
    · have step := ih _ _ h k hk
      rw [step]
      refine lookup_dictInsert_ne _ _ _ (fun he => hk ?_) _
      rw [he]
      rfl
    · cases h

theorem str_length_pos (s : String) (h : s ≠ "") : 0 < s.length := by
  rcases s with ⟨l⟩
  cases l with
  | nil => exact absurd rfl h
  | cons c cs => simp [String.length]

theorem entryLineOf_ne_empty (child : DirEntry) (s : String)
    (h : entryLineOf child = some s) : s ≠ "" := by
  rw [entryLineOf] at h
  split at h
  · injection h with he
    subst he
    intro hc
    apply_fun String.length at hc
    rw [String.length_append, String.length_append] at hc
    rw [show ("- " : String).length = 2 from rfl,
      show ("/ (folder)" : String).length = 10 from rfl,
      show ("" : String).length = 0 from rfl] at hc
    omega
  · split at h
    · injection h with he
      subst he
      intro hc
      apply_fun String.length at hc
      rw [String.length_append, String.length_append] at hc
      rw [show ("- " : String).length = 2 from rfl,
        show (" (document)" : String).length = 11 from rfl,
        show ("" : String).length = 0 from rfl] at hc
      omega
    · cases h

theorem pyJoin_cons_ne_empty (sep a : String) (tl : List String) (ha : a ≠ "") :
    pyJoin sep (a :: tl) ≠ "" := by
  cases tl with
  | nil => exact ha
  | cons b tl =>
    rw [pyJoin]
    intro hc
    apply_fun String.length at hc
    rw [String.length_append, String.length_append,
      show ("" : String).length = 0 from rfl] at hc
    have := str_length_pos a ha
    omega

theorem get_folder_contents_summary_ne_empty (entries : List DirEntry) :
    get_folder_contents_summary entries ≠ "" := by
  simp only [get_folder_contents_summary]
  split
  · decide
  · rename_i hne
    rcases hmem : (List.insertionSort entryNameLE entries).filterMap entryLineOf with
      _ | ⟨a, tl⟩
    · exact absurd hmem hne
    · refine pyJoin_cons_ne_empty "\n" a tl ?_
      have hmem2 : a ∈ (List.insertionSort entryNameLE entries).filterMap entryLineOf := by
        rw [hmem]
        exact List.mem_cons_self a tl
      obtain ⟨child, _, hline⟩ := List.mem_filterMap.mp hmem2
      exact entryLineOf_ne_empty child a hline

theorem process_chunk_ok_cases (root file_path : List String) (content : List Char)
    (entries : List DirEntry) (idx : Nat) (m : List (String × MVal))
    (h : process_chunk root file_path content entries idx = .ok m) :
    ∃ m0, dictUpdateStrings (base_metadata root file_path content idx)
        (get_folder_hierarchy file_path root) = .ok m0 ∧
      ((is_summary_file (file_path.getLastD "") = true ∧
        m = dictInsert m0 "folder_contents"
          (MVal.s (get_folder_contents_summary entries))) ∨
       (is_summary_file (file_path.getLastD "") = false ∧ m = m0)) := by
  simp only [process_chunk] at h
  cases hupd : dictUpdateStrings (base_metadata root file_path content idx)
      (get_folder_hierarchy file_path root) with
  | error e =>
    rw [hupd] at h
    cases h
  | ok m0 =>
    rw [hupd] at h
    refine ⟨m0, rfl, ?_⟩
    by_cases hs : is_summary_file (file_path.getLastD "") = true
    · simp only [hs] at h
      simp only [if_true, true_and, ne_eq,
        get_folder_contents_summary_ne_empty entries, not_false_eq_true,
        if_pos, Except.ok.injEq] at h
      exact Or.inl ⟨hs, h.symm⟩
    · have hs' : is_summary_file (file_path.getLastD "") = false := by
        rwa [Bool.not_eq_true] at hs
      simp only [hs'] at h
      simp at h
      exact Or.inr ⟨hs', h.symm⟩

theorem process_chunk_lookup_base (root file_path : List String)
    (content : List Char) (entries : List DirEntry) (idx : Nat)
    (m : List (String × MVal))
    (h : process_chunk root file_path content entries idx = .ok m)
    (k : String) (hk1 : k.toList.length ≠ 1) (hk2 : k ≠ "folder_contents") :
    List.lookup k m = List.lookup k (base_metadata root file_path content idx) := by
  obtain ⟨m0, hupd, hcase⟩ :=
    process_chunk_ok_cases root file_path content entries idx m h
  have hbase := dictUpdateStrings_lookup _ _ _ hupd k hk1
  rcases hcase with ⟨_, rfl⟩ | ⟨_, rfl⟩
  · rw [lookup_dictInsert_ne "folder_contents" k _ hk2 m0, hbase]
  · exact hbase

theorem lookup_base_type (root file_path : List String) (content : List Char)
    (idx : Nat) :
    List.lookup "type" (base_metadata root file_path content idx) =
      some (MVal.s
        (if is_summary_file (file_path.getLastD "") then "summary" else "content")) :=
  rfl

theorem lookup_base_is_summary (root file_path : List String)
    (content : List Char) (idx : Nat) :
    List.lookup "is_summary" (base_metadata root file_path content idx) =
      some (MVal.s
        (if is_summary_file (file_path.getLastD "") then "true" else "false")) :=
  rfl

theorem lookup_base_depth (root file_path : List String) (content : List Char)
    (idx : Nat) :
    List.lookup "depth" (base_metadata root file_path content idx) =
      some (MVal.n (get_folder_hierarchy file_path root).length) :=
  rfl

theorem lookup_base_parent_folders (root file_path : List String)
    (content : List Char) (idx : Nat) :
    List.lookup "parent_folders" (base_metadata root file_path content idx) =
      some (MVal.l (get_folder_hierarchy file_path root)) :=
  rfl

theorem lookup_base_folder_contents (root file_path : List String)
    (content : List Char) (idx : Nat) :
    List.lookup "folder_contents" (base_metadata root file_path content idx) =
      none :=
  rfl

/-- C7: every record the ingestion actually produces satisfies
`is_summary == "true"` iff `type == "summary"`, and its `depth` equals the
length of its `parent_folders` list. -/
theorem claim_C7_metadata_invariant (root file_path : List String)
    (content : List Char) (entries : List DirEntry) (idx : Nat)
    (m : List (String × MVal))
    (h : process_chunk root file_path content entries idx = .ok m) :
    ((List.lookup "is_summary" m = some (MVal.s "true")) ↔
      (List.lookup "type" m = some (MVal.s "summary"))) ∧
    (∃ l, List.lookup "parent_folders" m = some (MVal.l l) ∧
      List.lookup "depth" m = some (MVal.n l.length)) := by
  have ht := process_chunk_lookup_base root file_path content entries idx m h
    "type" (by decide) (by decide)
  have his := process_chunk_lookup_base root file_path content entries idx m h
    "is_summary" (by decide) (by decide)
  have hd := process_chunk_lookup_base root file_path content entries idx m h
    "depth" (by decide) (by decide)
  have hp := process_chunk_lookup_base root file_path content entries idx m h
    "parent_folders" (by decide) (by decide)
  rw [ht, his, hd, hp, lookup_base_type, lookup_base_is_summary,
    lookup_base_depth, lookup_base_parent_folders]
  constructor
  · by_cases hs : is_summary_file (file_path.getLastD "") = true <;> simp [hs]
  · exact ⟨get_folder_hierarchy file_path root, rfl, rfl⟩

/-- Witness for C7: a content document directly under the root. -/
theorem claim_C7_metadata_invariant_witness :
    process_chunk [] ["doc.md"] ("# T".toList) [] 0 =
      .ok [("path", MVal.s "doc.md"), ("title", MVal.s "T"),
        ("section", MVal.s ""), ("chunk_index", MVal.n 0),
        ("type", MVal.s "content"), ("is_summary", MVal.s "false"),
        ("depth", MVal.n 0), ("parent_folders", MVal.l [])] ∧
    (((List.lookup "is_summary" [("path", MVal.s "doc.md"), ("title", MVal.s "T"),
        ("section", MVal.s ""), ("chunk_index", MVal.n 0),
        ("type", MVal.s "content"), ("is_summary", MVal.s "false"),
        ("depth", MVal.n 0), ("parent_folders", MVal.l [])] = some (MVal.s "true")) ↔
      (List.lookup "type" [("path", MVal.s "doc.md"), ("title", MVal.s "T"),
        ("section", MVal.s ""), ("chunk_index", MVal.n 0),
        ("type", MVal.s "content"), ("is_summary", MVal.s "false"),
        ("depth", MVal.n 0), ("parent_folders", MVal.l [])] = some (MVal.s "summary"))) ∧
    (∃ l, List.lookup "parent_folders" [("path", MVal.s "doc.md"), ("title", MVal.s "T"),
        ("section", MVal.s ""), ("chunk_index", MVal.n 0),
        ("type", MVal.s "content"), ("is_summary", MVal.s "false"),
        ("depth", MVal.n 0), ("parent_folders", MVal.l [])] = some (MVal.l l) ∧
      List.lookup "depth" [("path", MVal.s "doc.md"), ("title", MVal.s "T"),
        ("section", MVal.s ""), ("chunk_index", MVal.n 0),
        ("type", MVal.s "content"), ("is_summary", MVal.s "false"),
        ("depth", MVal.n 0), ("parent_folders", MVal.l [])] = some (MVal.n l.length))) :=
  ⟨rfl, claim_C7_metadata_invariant [] ["doc.md"] ("# T".toList) [] 0 _ rfl⟩

/-- C3 as stated is false; the amended inclusion policy proved here: a chunk
record carries `folder_contents` **iff** its document is a FolderAnchor.
The listing string is never empty, because an anchor whose folder has no
subfolders and no other Markdown documents still gets the non-empty sentinel
`"(Empty folder)"`, so `if is_summary and folder_contents:` always attaches
the field for anchors. -/
theorem claim_C3_folder_contents_presence (root file_path : List String)
    (content : List Char) (entries : List DirEntry) (idx : Nat)
    (m : List (String × MVal))
    (h : process_chunk root file_path content entries idx = .ok m) :
    (List.lookup "folder_contents" m).isSome =
      is_summary_file (file_path.getLastD "") := by
  obtain ⟨m0, hupd, hcase⟩ :=
    process_chunk_ok_cases root file_path content entries idx m h
  rcases hcase with ⟨hs, rfl⟩ | ⟨hs, rfl⟩
  · rw [lookup_dictInsert_self, hs]
    rfl
  · rw [dictUpdateStrings_lookup _ _ _ hupd "folder_contents" (by decide),
      lookup_base_folder_contents, hs]
    rfl

/-- C3 counterexample: a `_summary.md` anchor for a folder containing
nothing but the anchor itself.  The claim says its chunks carry no
`folder_contents` field; the code attaches the field with the sentinel value
`"(Empty folder)"`. -/
theorem claim_C3_folder_contents_counterexample :
    process_chunk [] ["_summary.md"] ("anchor body".toList)
        [⟨"_summary.md", false⟩] 0 =
      .ok [("path", MVal.s "_summary.md"), ("title", MVal.s "_summary"),
        ("section", MVal.s ""), ("chunk_index", MVal.n 0),
        ("type", MVal.s "summary"), ("is_summary", MVal.s "true"),
        ("depth", MVal.n 0), ("parent_folders", MVal.l []),
        ("folder_contents", MVal.s "(Empty folder)")] ∧
    List.lookup "folder_contents"
        [("path", MVal.s "_summary.md"), ("title", MVal.s "_summary"),
        ("section", MVal.s ""), ("chunk_index", MVal.n 0),
        ("type", MVal.s "summary"), ("is_summary", MVal.s "true"),
        ("depth", MVal.n 0), ("parent_folders", MVal.l []),
        ("folder_contents", MVal.s "(Empty folder)")] =
      some (MVal.s "(Empty folder)") :=
  ⟨rfl, rfl⟩

/-- Witness for the amended C3 at a concrete anchor input. -/
theorem claim_C3_folder_contents_presence_witness :
    process_chunk [] ["_summary.md"] ("anchor body".toList)
        [⟨"_summary.md", false⟩] 0 =
      .ok [("path", MVal.s "_summary.md"), ("title", MVal.s "_summary"),
        ("section", MVal.s ""), ("chunk_index", MVal.n 0),
        ("type", MVal.s "summary"), ("is_summary", MVal.s "true"),
        ("depth", MVal.n 0), ("parent_folders", MVal.l []),
        ("folder_contents", MVal.s "(Empty folder)")] ∧
    (List.lookup "folder_contents"
        [("path", MVal.s "_summary.md"), ("title", MVal.s "_summary"),
        ("section", MVal.s ""), ("chunk_index", MVal.n 0),
        ("type", MVal.s "summary"), ("is_summary", MVal.s "true"),
        ("depth", MVal.n 0), ("parent_folders", MVal.l []),
        ("folder_contents", MVal.s "(Empty folder)")]).isSome =
      is_summary_file ((["_summary.md"] : List String).getLastD "") :=
  ⟨rfl, claim_C3_folder_contents_presence [] ["_summary.md"]
    ("anchor body".toList) [⟨"_summary.md", false⟩] 0 _ rfl⟩

/-- C4 as stated is false; amended: when a chunk of a FolderAnchor carries
`folder_contents`, the value is the listing freshly computed from the
anchor's parent directory (`get_folder_contents_summary`), not a verbatim
copy of the anchor document's own text. -/
theorem claim_C4_folder_contents_value (root file_path : List String)
    (content : List Char) (entries : List DirEntry) (idx : Nat)
    (m : List (String × MVal))
    (h : process_chunk root file_path content entries idx = .ok m)
    (hs : is_summary_file (file_path.getLastD "") = true) :
    List.lookup "folder_contents" m =
      some (MVal.s (get_folder_contents_summary entries)) := by
  obtain ⟨m0, hupd, hcase⟩ :=
    process_chunk_ok_cases root file_path content entries idx m h
  rcases hcase with ⟨_, rfl⟩ | ⟨hs', _⟩
  · exact lookup_dictInsert_self _ _ _
  · rw [hs] at hs'
    cases hs'

/-- C4 counterexample: an anchor at the index root over children `x.md`,
`y.md`, whose own body is the claim's listing text.  The chunk's
`folder_contents` is the recomputed listing `- x (document)\n- y (document)`
(stems, no `.md`), which differs from the anchor's own content. -/
theorem claim_C4_folder_contents_counterexample :
    process_chunk [] ["_summary.md"]
        ("- x.md (document)\n- y.md (document)".toList)
        [⟨"_summary.md", false⟩, ⟨"x.md", false⟩, ⟨"y.md", false⟩] 0 =
      .ok [("path", MVal.s "_summary.md"), ("title", MVal.s "_summary"),
        ("section", MVal.s ""), ("chunk_index", MVal.n 0),
        ("type", MVal.s "summary"), ("is_summary", MVal.s "true"),
        ("depth", MVal.n 0), ("parent_folders", MVal.l []),
        ("folder_contents", MVal.s "- x (document)\n- y (document)")] ∧
    List.lookup "folder_contents"
        [("path", MVal.s "_summary.md"), ("title", MVal.s "_summary"),
        ("section", MVal.s ""), ("chunk_index", MVal.n 0),
        ("type", MVal.s "summary"), ("is_summary", MVal.s "true"),
        ("depth", MVal.n 0), ("parent_folders", MVal.l []),
        ("folder_contents", MVal.s "- x (document)\n- y (document)")] =
      some (MVal.s "- x (document)\n- y (document)") ∧
    ("- x (document)\n- y (document)" : String) ≠
      "- x.md (document)\n- y.md (document)" :=
  ⟨by decide, rfl, by decide⟩

/-- Witness for the amended C4 at the same concrete anchor input. -/
theorem claim_C4_folder_contents_value_witness :
    process_chunk [] ["_summary.md"]
        ("- x.md (document)\n- y.md (document)".toList)
        [⟨"_summary.md", false⟩, ⟨"x.md", false⟩, ⟨"y.md", false⟩] 0 =
      .ok [("path", MVal.s "_summary.md"), ("title", MVal.s "_summary"),
        ("section", MVal.s ""), ("chunk_index", MVal.n 0),
        ("type", MVal.s "summary"), ("is_summary", MVal.s "true"),
        ("depth", MVal.n 0), ("parent_folders", MVal.l []),
        ("folder_contents", MVal.s "- x (document)\n- y (document)")] ∧
    is_summary_file ((["_summary.md"] : List String).getLastD "") = true ∧
    List.lookup "folder_contents"
        [("path", MVal.s "_summary.md"), ("title", MVal.s "_summary"),
        ("section", MVal.s ""), ("chunk_index", MVal.n 0),
        ("type", MVal.s "summary"), ("is_summary", MVal.s "true"),
        ("depth", MVal.n 0), ("parent_folders", MVal.l []),
        ("folder_contents", MVal.s "- x (document)\n- y (document)")] =
      some (MVal.s (get_folder_contents_summary
        [⟨"_summary.md", false⟩, ⟨"x.md", false⟩, ⟨"y.md", false⟩])) :=
  ⟨by decide, rfl, claim_C4_folder_contents_value [] ["_summary.md"]
    ("- x.md (document)\n- y.md (document)".toList)
    [⟨"_summary.md", false⟩, ⟨"x.md", false⟩, ⟨"y.md", false⟩] 0 _ (by decide) rfl⟩

theorem extract_title_lines_eq_find (lines : List (List Char)) :
    extract_title_lines lines =
      match lines.find? startsWithHash with
      | none => []
      | some line => pyStrip (line.dropWhile isHashOrSpace) := by
  induction lines with
  | nil => rfl
  | cons l rest ih =>
    by_cases h : startsWithHash l = true
    · rw [extract_title_lines, if_pos h, List.find?_cons_of_pos _ h]
    · have hf : startsWithHash l = false := by rwa [Bool.not_eq_true] at h
      rw [extract_title_lines, if_neg h, List.find?_cons_of_neg _ (by rw [hf]; decide), ih]

/-- C8 as stated is false in its "exactly when" clause; the amended
derivation proved here: the title is the first line beginning with `#`,
stripped of leading `#`/space characters (and surrounding whitespace), when
that stripped heading is non-empty; the fallback to the file's base name
without extension occurs when no line begins with `#` **or** the first such
line strips to the empty string. -/
theorem claim_C8_title_derivation (text : List Char) (fname : String) :
    derive_title text fname =
      match (pySplitlines text).find? startsWithHash with
      | none => pyStem fname
      | some line =>
        if pyStrip (line.dropWhile isHashOrSpace) = [] then pyStem fname
        else String.mk (pyStrip (line.dropWhile isHashOrSpace)) := by
  simp only [derive_title, extract_title, extract_title_lines_eq_find]
  cases h : (pySplitlines text).find? startsWithHash with
  | none => simp
  | some line =>
    by_cases he : pyStrip (line.dropWhile isHashOrSpace) = [] <;> simp [he]

/-- C8 counterexample: the document `"#"` *does* contain a line beginning
with a heading marker, yet the derived title is the base-name fallback
`"doc"` (the heading strips to the empty string, which is falsy), so the
fallback does not occur exactly when no line begins with `#`. -/
theorem claim_C8_title_counterexample :
    (pySplitlines ("#".toList)).any startsWithHash = true ∧
    derive_title ("#".toList) "doc.md" = "doc" ∧
    pyStrip (("#".toList).dropWhile isHashOrSpace) = [] := by
  refine ⟨rfl, rfl, rfl⟩

theorem takeWhile_append_cons (p : Char → Bool) (w : List Char) (x : Char)
    (rest : List Char) (hw : ∀ c ∈ w, p c = true) (hx : p x = false) :
    (w ++ x :: rest).takeWhile p = w ∧ (w ++ x :: rest).dropWhile p = x :: rest := by
  induction w with
  | nil => simp [List.takeWhile_cons, List.dropWhile_cons, hx]
  | cons a w ih =>
    have ha : p a = true := hw a (List.mem_cons_self a w)
    have ih' := ih (fun c hc => hw c (List.mem_cons_of_mem a hc))
    simp [List.takeWhile_cons, List.dropWhile_cons, ha, ih'.1, ih'.2]

theorem pyWords_valid (cs : List Char) :
    ∀ w ∈ pyWords cs, w ≠ [] ∧ ∀ c ∈ w, pyIsSpace c = false := by
  induction cs using pyWords.induct with
  | case1 =>
    intro w hw
    rw [pyWords] at hw
    cases hw
  | case2 c cs hc ih =>
    rw [pyWords, if_pos hc]
    exact ih
  | case3 c cs hc ih =>
    rw [pyWords, if_neg hc]
    intro w hw
    rcases List.mem_cons.mp hw with rfl | hw2
    · refine ⟨by simp, ?_⟩
      intro d hd
      rcases List.mem_cons.mp hd with rfl | hd2
      · simpa using hc
      · have := List.mem_takeWhile_imp hd2
        simpa using this
    · exact ih w hw2

theorem pyWords_word_space (w rest : List Char) (hne : w ≠ [])
    (hw : ∀ c ∈ w, pyIsSpace c = false) :
    pyWords (w ++ ' ' :: rest) = w :: pyWords rest := by
  cases w with
  | nil => exact absurd rfl hne
  | cons c w' =>
    have hc : pyIsSpace c = false := hw c (List.mem_cons_self c w')
    have h1 := takeWhile_append_cons (fun d => !pyIsSpace d) w' ' ' rest
      (fun d hd => by simp [hw d (List.mem_cons_of_mem c hd)]) (by decide)
    rw [List.cons_append, pyWords, if_neg (by simp [hc]), h1.1, h1.2]
    have hsp : pyWords (' ' :: rest) = pyWords rest := by
      rw [pyWords, if_pos (by decide)]
    rw [hsp]

theorem pyWords_word_only (w : List Char) (hne : w ≠ [])
    (hw : ∀ c ∈ w, pyIsSpace c = false) :
    pyWords w = [w] := by
  cases w with
  | nil => exact absurd rfl hne
  | cons c w' =>
    have hc : pyIsSpace c = false := hw c (List.mem_cons_self c w')
    rw [pyWords, if_neg (by simp [hc]),
      List.takeWhile_eq_self_iff.mpr
        (fun d hd => by simp [hw d (List.mem_cons_of_mem c hd)]),
      List.dropWhile_eq_nil_iff.mpr
        (fun d hd => by simp [hw d (List.mem_cons_of_mem c hd)])]
    rw [pyWords]

theorem pyWords_intercalate (ws : List (List Char))
    (h : ∀ w ∈ ws, w ≠ [] ∧ ∀ c ∈ w, pyIsSpace c = false) :
    pyWords (List.intercalate [' '] ws) = ws := by
  induction ws with
  | nil =>
    show pyWords [] = []
    rw [pyWords]
  | cons w ws ih =>
    cases ws with
    | nil =>
      have hsing : List.intercalate [' '] [w] = w := by
        simp [List.intercalate, List.intersperse]
      rw [hsing]
      exact pyWords_word_only w (h w (List.mem_cons_self w [])).1
        (h w (List.mem_cons_self w [])).2
    | cons w2 rest =>
      have hcc : List.intercalate [' '] (w :: w2 :: rest) =
          w ++ [' '] ++ List.intercalate [' '] (w2 :: rest) := by
        simp [List.intercalate, List.intersperse]
      rw [hcc, List.append_assoc, List.singleton_append,
        pyWords_word_space w _ (h w (List.mem_cons_self w _)).1
          (h w (List.mem_cons_self w _)).2,
        ih (fun v hv => h v (List.mem_cons_of_mem w hv))]

theorem intercalate_append_both_ne (sep : List Char) (l1 l2 : List (List Char))
    (h1 : l1 ≠ []) (h2 : l2 ≠ []) :
    List.intercalate sep (l1 ++ l2) =
      List.intercalate sep l1 ++ sep ++ List.intercalate sep l2 := by
  induction l1 with
  | nil => exact absurd rfl h1
  | cons a l1 ih =>
    cases l1 with
    | nil =>
      cases l2 with
      | nil => exact absurd rfl h2
      | cons b t => simp [List.intercalate, List.intersperse]
    | cons a2 l1' =>
      have step := ih (by simp)
      have hcc : ∀ tail : List (List Char),
          List.intercalate sep (a :: a2 :: tail) =
            a ++ sep ++ List.intercalate sep (a2 :: tail) := by
        intro tail
        simp [List.intercalate, List.intersperse]
      rw [List.cons_append, List.cons_append, hcc, hcc]
      rw [List.cons_append] at step
      rw [step]
      simp [List.append_assoc]

theorem chunkWords_intercalate (size : Nat) (ws : List (List Char)) (hsz : 0 < size) :
    List.intercalate [' '] (chunkWords size ws) = List.intercalate [' '] ws := by
  induction size, ws using chunkWords.induct with
  | case1 size =>
    rw [chunkWords]
  | case2 w ws =>
    exact absurd hsz (by omega)
  | case3 s w ws ih =>
    rw [chunkWords]
    cases hd : List.drop s ws with
    | nil =>
      have hlen : ws.length ≤ s := by
        have := congrArg List.length hd
        rw [List.length_drop] at this
        simp at this
        omega
      have hnil : chunkWords (s + 1) ([] : List (List Char)) = [] := by
        rw [chunkWords]
      have htake : List.take (s + 1) (w :: ws) = w :: ws :=
        List.take_of_length_le (by simp; omega)
      have hsing : List.intercalate [' '] [List.intercalate [' '] (w :: ws)] =
          List.intercalate [' '] (w :: ws) := by
        simp [List.intercalate, List.intersperse]
      rw [hnil, htake, hsing]
    | cons y tl =>
      have ih2 := ih (by omega)
      rw [hd] at ih2
      rcases hck : chunkWords (s + 1) (y :: tl) with _ | ⟨A, As⟩
      · rw [chunkWords] at hck
        cases hck
      · rw [hck] at ih2
        have hcc : List.intercalate [' ']
            (List.intercalate [' '] (List.take (s + 1) (w :: ws)) :: A :: As) =
            List.intercalate [' '] (List.take (s + 1) (w :: ws)) ++ [' '] ++
              List.intercalate [' '] (A :: As) := by
          simp [List.intercalate, List.intersperse]
        have hdrop : List.drop (s + 1) (w :: ws) = y :: tl := by
          rw [show List.drop (s + 1) (w :: ws) = List.drop s ws from rfl, hd]
        have hsplit := intercalate_append_both_ne [' ']
          (List.take (s + 1) (w :: ws)) (List.drop (s + 1) (w :: ws))
          (by simp) (by rw [hdrop]; simp)
        rw [List.take_append_drop] at hsplit
        rw [hcc, ih2, hsplit, hdrop]

theorem chunkWords_length (size : Nat) (ws : List (List Char)) (hsz : 0 < size) :
    (chunkWords size ws).length = (ws.length + size - 1) / size := by
  induction size, ws using chunkWords.induct with
  | case1 size =>
    rw [chunkWords]
    show 0 = (0 + size - 1) / size
    rw [Nat.zero_add]
    exact (Nat.div_eq_of_lt (by omega)).symm
  | case2 w ws =>
    exact absurd hsz (by omega)
  | case3 s w ws ih =>
    rw [chunkWords]
    have ih2 := ih (by omega)
    rw [List.length_cons, ih2, List.length_drop]
    have htarget : (w :: ws).length + (s + 1) - 1 = ws.length + (s + 1) := by
      simp
      omega
    rw [htarget, Nat.add_div_right _ (by omega)]
    by_cases hle : s ≤ ws.length
    · have : ws.length - s + (s + 1) - 1 = ws.length := by omega
      rw [this]
    · have h0 : ws.length - s = 0 := by omega
      rw [h0]
      have h1 : 0 + (s + 1) - 1 = s := by omega
      rw [h1, Nat.div_eq_of_lt (by omega), Nat.div_eq_of_lt (by omega)]

/-- C5: for every text `T` and chunk size `S > 0`, joining
`split_into_chunks T S` with single spaces reproduces `T`'s
whitespace-delimited word sequence exactly, the number of chunks is
`ceil(word_count / S)` (written `(word_count + S - 1) / S`), and a text with
no words yields zero chunks, not one empty chunk. -/
theorem claim_C5_chunker (text : List Char) (size : Nat) (hsz : 0 < size) :
    pyWords (List.intercalate [' '] (split_into_chunks text size)) = pyWords text ∧
    (split_into_chunks text size).length = ((pyWords text).length + size - 1) / size ∧
    (pyWords text = [] → split_into_chunks text size = []) := by
  refine ⟨?_, ?_, ?_⟩
  · rw [split_into_chunks, chunkWords_intercalate size (pyWords text) hsz,
      pyWords_intercalate (pyWords text) (pyWords_valid text)]
  · rw [split_into_chunks, chunkWords_length size (pyWords text) hsz]
  · intro h
    rw [split_into_chunks, h, chunkWords]

/-- Witness for C5 at `T = "one two three"`, `S = 2`. -/
theorem claim_C5_chunker_witness :
    (0 : Nat) < 2 ∧
    (pyWords (List.intercalate [' '] (split_into_chunks ("one two three".toList) 2)) =
      pyWords ("one two three".toList) ∧
    (split_into_chunks ("one two three".toList) 2).length =
      ((pyWords ("one two three".toList)).length + 2 - 1) / 2 ∧
    (pyWords ("one two three".toList) = [] →
      split_into_chunks ("one two three".toList) 2 = [])) :=
  ⟨by decide, claim_C5_chunker ("one two three".toList) 2 (by decide)⟩
